import Mathlib

/-!
Verification of the da-edge repository's DOM-decoration behaviour.

The development shallowly embeds the repository's code over a small DOM
model: `Node` is a browser DOM node (text node or element with tag, class
list and children), a document is the forest of nodes below the root, and
`innerHTML` reads are serialization while `innerHTML` writes are
parse-and-replace of the child list, as in a browser.

Embedded code:
  * `heroScript` — the whole of blocks/hero/hero.js.
  * `decorateList` — the list-based block decorator from
    docs/explanation/block-system.md ("List-Based Blocks").
  * `decorateData` — the async data-loading decorator from
    docs/explanation/block-system.md ("Async Data Loading").
  * `initPage` — the page bootstrap from docs/reference/scripts-api.md.
  * `toClassName`, `readBlockConfig` — utilities of scripts/aem.js,
    modelled from the reference documentation since the file itself is
    not part of the repository snapshot.
-/

namespace DaEdge

/-- A DOM node: a text node carrying its character data, or an element with
a tag name, the parsed value of its `class` attribute, and its child nodes. -/
inductive Node where
  | text (s : String)
  | elem (tag : String) (classes : List String) (children : List Node)

/-- Escaping applied by the browser to text-node data when serializing
`innerHTML`: `&`, `<` and `>` become character references. -/
def escText (s : String) : String :=
  String.join (s.toList.map fun c =>
    if c = '&' then "&amp;" else if c = '<' then "&lt;"
    else if c = '>' then "&gt;" else String.singleton c)

/-- Escaping applied by the browser to attribute values when serializing
`innerHTML`: `&` and `"` become character references. -/
def escAttr (s : String) : String :=
  String.join (s.toList.map fun c =>
    if c = '&' then "&amp;" else if c = '"' then "&quot;"
    else String.singleton c)

mutual

/-- Serialization of one node, as the `innerHTML` getter produces it. -/
def serN : Node → String
  | .text s => escText s
  | .elem t cls ch =>
      "<" ++ t ++
      (if cls.isEmpty then "" else " class=\"" ++ escAttr (" ".intercalate cls) ++ "\"") ++
      ">" ++ serL ch ++ "</" ++ t ++ ">"

/-- Serialization of a child list, as the `innerHTML` getter produces it. -/
def serL : List Node → String
  | [] => ""
  | n :: ns => serN n ++ serL ns

end

/-- Reads a run of tag- or attribute-name characters. -/
def readName : List Char → String × List Char
  | [] => ("", [])
  | c :: rest =>
      if c.isAlphanum ∨ c = '-' then
        let (nm, r) := readName rest
        (String.singleton c ++ nm, r)
      else ("", c :: rest)

/-- Reads text-node data up to the next `<`, decoding the character
references the serializer produces. -/
def readText : List Char → String × List Char
  | [] => ("", [])
  | '<' :: rest => ("", '<' :: rest)
  | '&' :: 'a' :: 'm' :: 'p' :: ';' :: rest =>
      let (s, r) := readText rest
      ("&" ++ s, r)
  | '&' :: 'l' :: 't' :: ';' :: rest =>
      let (s, r) := readText rest
      ("<" ++ s, r)
  | '&' :: 'g' :: 't' :: ';' :: rest =>
      let (s, r) := readText rest
      (">" ++ s, r)
  | c :: rest =>
      let (s, r) := readText rest
      (String.singleton c ++ s, r)

/-- Reads an attribute value up to the closing quote, decoding character
references. -/
def readAttrValue : List Char → String × List Char
  | [] => ("", [])
  | '"' :: rest => ("", rest)
  | '&' :: 'a' :: 'm' :: 'p' :: ';' :: rest =>
      let (s, r) := readAttrValue rest
      ("&" ++ s, r)
  | '&' :: 'q' :: 'u' :: 'o' :: 't' :: ';' :: rest =>
      let (s, r) := readAttrValue rest
      ("\"" ++ s, r)
  | c :: rest =>
      let (s, r) := readAttrValue rest
      (String.singleton c ++ s, r)

/-- Reads the attribute list of a start tag, returning the attributes and
the input after the closing `>`. Fueled to stay total on malformed input. -/
def readAttrs : Nat → List Char → List (String × String) × List Char
  | 0, cs => ([], cs)
  | _ + 1, [] => ([], [])
  | fuel + 1, c :: rest =>
      if c = '>' then ([], rest)
      else if c = ' ' then readAttrs fuel rest
      else
        let (nm, r1) := readName (c :: rest)
        if nm = "" then readAttrs fuel rest
        else
          match r1 with
          | '=' :: '"' :: r2 =>
              let (v, r3) := readAttrValue r2
              let (attrs, r4) := readAttrs fuel r3
              ((nm, v) :: attrs, r4)
          | r2 =>
              let (attrs, r3) := readAttrs fuel r2
              ((nm, "") :: attrs, r3)

/-- Accumulator loop for `splitClasses`. -/
def splitClassesAux : List Char → List Char → List String
  | [], acc => if acc.isEmpty then [] else [(⟨acc.reverse⟩ : String)]
  | c :: rest, acc =>
      if c = ' ' then
        (if acc.isEmpty then [] else [(⟨acc.reverse⟩ : String)]) ++
          splitClassesAux rest []
      else splitClassesAux rest (c :: acc)

/-- Splits a `class` attribute value into the class list, as `classList`
does. -/
def splitClasses (s : String) : List String :=
  splitClassesAux s.toList []

/-- The class list carried by a parsed attribute list. -/
def classesOfAttrs (attrs : List (String × String)) : List String :=
  match attrs.lookup "class" with
  | some v => splitClasses v
  | none => []

/-- Consumes the end tag `</name>` when the input starts with it. -/
def dropClose (name : String) (cs : List Char) : List Char :=
  let pat := ("</" ++ name ++ ">").toList
  if cs.take pat.length = pat then cs.drop pat.length else cs

/-- Fueled HTML fragment parser matching the serialization language of
`serL`: the semantics of assigning a string to `innerHTML`. -/
def parseMany : Nat → List Char → List Node × List Char
  | 0, cs => ([], cs)
  | _ + 1, [] => ([], [])
  | fuel + 1, '<' :: rest =>
      match rest with
      | '/' :: _ => ([], '<' :: rest)
      | _ =>
          let (nm, r1) := readName rest
          if nm = "" then
            let (ns, r) := parseMany fuel rest
            (Node.text "<" :: ns, r)
          else
            let (attrs, r2) := readAttrs (r1.length + 1) r1
            let (children, r3) := parseMany fuel r2
            let r4 := dropClose nm r3
            let (siblings, r5) := parseMany fuel r4
            (Node.elem nm (classesOfAttrs attrs) children :: siblings, r5)
  | fuel + 1, c :: rest =>
      let (txt, r1) := readText (c :: rest)
      let (ns, r2) := parseMany fuel r1
      (Node.text txt :: ns, r2)

/-- The semantics of assigning `s` to an element's `innerHTML`: the string
is parsed into the element's new child list. -/
def parseNodes (s : String) : List Node :=
  (parseMany (s.length + 1) s.toList).1

/-- Whether a node is a DOM text node (`node.nodeType === Node.TEXT_NODE`). -/
def isTextNode : Node → Bool
  | .text _ => true
  | .elem _ _ _ => false

/-- The loop of hero.js lines 6-11: concatenate the `textContent` of the
direct text-node children, ignoring element children such as `<picture>`. -/
def directText : List Node → String
  | [] => ""
  | .text s :: ns => s ++ directText ns
  | .elem _ _ _ :: ns => directText ns

/-- The effect of hero.js's `replace(/[\n\r\t]/g, '')`. -/
def stripNlCrTab (s : String) : String :=
  ⟨s.toList.filter fun c => ¬ (c = '\n' ∨ c = '\r' ∨ c = '\t')⟩

/-- Whitespace as JavaScript's `String.prototype.trim` strips it. -/
def isJsWs (c : Char) : Bool :=
  c = ' ' ∨ c = '\t' ∨ c = '\n' ∨ c = '\r' ∨ c = '\x0b' ∨ c = '\x0c' ∨ c = ' '

/-- The effect of JavaScript's `.trim()`. -/
def jsTrim (s : String) : String :=
  ⟨((s.toList.dropWhile isJsWs).reverse.dropWhile isJsWs).reverse⟩

/-- hero.js's `cleanText`, computed from an element's child list: the
direct text-node children concatenated, with newlines, carriage returns
and tabs removed, then trimmed. -/
def cleanTextOfChildren (ch : List Node) : String :=
  jsTrim (stripNlCrTab (directText ch))

/-- JavaScript's `String.prototype.startsWith`. -/
def jsStartsWith (s pre : String) : Bool :=
  pre.toList.isPrefixOf s.toList

/-- Fueled loop of `jsReplaceAll`: scans left to right, replacing each
non-overlapping occurrence of `pat`. -/
def replaceFuel : Nat → List Char → List Char → List Char → List Char
  | 0, _, _, l => l
  | _ + 1, _, _, [] => []
  | fuel + 1, pat, rep, c :: rest =>
      if pat.isPrefixOf (c :: rest) ∧ pat ≠ [] then
        rep ++ replaceFuel fuel pat rep ((c :: rest).drop pat.length)
      else c :: replaceFuel fuel pat rep rest

/-- JavaScript's `s.replace(/pat/g, rep)` for a literal pattern: every
non-overlapping occurrence of `pat`, scanning left to right, is replaced
by `rep`. -/
def jsReplaceAll (s pat rep : String) : String :=
  ⟨replaceFuel (s.length + 1) pat.toList rep.toList s.toList⟩

/-- The replacement string of hero.js line 18. -/
def dxSpan : String := "<span class=\"dx\">DX</span>"

/-- hero.js lines 4-20 applied to the found `h1` element: when the clean
text starts with `FeDX`, assign to `innerHTML` the old `innerHTML` with
every `DX` replaced by `dxSpan`; otherwise leave the element alone. -/
def rewriteH1 : Node → Node
  | .elem t c ch =>
      if jsStartsWith (cleanTextOfChildren ch) "FeDX" then
        .elem t c (parseNodes (jsReplaceAll (serL ch) "DX" dxSpan))
      else .elem t c ch
  | .text s => .text s

/-- Whether a node matches the CSS selector `.hero`. -/
def isHeroEl : Node → Bool
  | .elem _ cls _ => cls.contains "hero"
  | .text _ => false

/-- Whether a node matches the CSS selector `h1`. -/
def isH1El : Node → Bool
  | .elem t _ _ => t = "h1"
  | .text _ => false

mutual

/-- Replaces the first node in pre-order document order that satisfies `p`
by its image under `f`; the Boolean reports whether a match was found.
This is the mutation performed through `querySelector` followed by an
in-place update of the found element. -/
def updFirstN (p : Node → Bool) (f : Node → Node) (n : Node) : Node × Bool :=
  if p n then (f n, true)
  else
    match n with
    | .text s => (.text s, false)
    | .elem t c ch =>
        let r := updFirstL p f ch
        (.elem t c r.1, r.2)

/-- `updFirstN` over a forest, scanning in document order. -/
def updFirstL (p : Node → Bool) (f : Node → Node) : List Node → List Node × Bool
  | [] => ([], false)
  | n :: ns =>
      match updFirstN p f n with
      | (m, true) => (m :: ns, true)
      | (m, false) =>
          let r := updFirstL p f ns
          (m :: r.1, r.2)

end

mutual

/-- `querySelector` semantics on a node: the first node in pre-order (the
node itself included) satisfying `p`. -/
def findFirstN (p : Node → Bool) (n : Node) : Option Node :=
  if p n then some n
  else
    match n with
    | .text _ => none
    | .elem _ _ ch => findFirstL p ch

/-- `querySelector` semantics on a forest. -/
def findFirstL (p : Node → Bool) : List Node → Option Node
  | [] => none
  | n :: ns =>
      match findFirstN p n with
      | some m => some m
      | none => findFirstL p ns

end

/-- hero.js's action on the found `.hero` element: `querySelector('h1')`
searches its descendants and the found `h1` is rewritten in place. -/
def decorateHeroEl : Node → Node
  | .elem t c ch => .elem t c (updFirstL isH1El rewriteH1 ch).1
  | .text s => .text s

/-- The whole of blocks/hero/hero.js as a document transformation: find
the first `.hero` element of the document, find the first `h1` among its
descendants, and rewrite that `h1` under the `FeDX` guard. A document is
the forest of nodes below the root. -/
def heroScript (doc : List Node) : List Node :=
  (updFirstL isHeroEl decorateHeroEl doc).1

/-- The node of a forest addressed by a path of child indices: `[i]` is the
i-th root, `[i, j, ...]` descends into its children. The empty path
addresses no node. -/
def nodeAtL : List Node → List Nat → Option Node
  | _, [] => none
  | l, i :: rest =>
      match l.get? i with
      | none => none
      | some n =>
          match rest with
          | [] => some n
          | _ :: _ =>
              match n with
              | .text _ => none
              | .elem _ _ ch => nodeAtL ch rest

mutual

/-- The path, relative to `n` (the empty path meaning `n` itself), of the
first pre-order node satisfying `p`. -/
def findPathN (p : Node → Bool) (n : Node) : Option (List Nat) :=
  if p n then some []
  else
    match n with
    | .text _ => none
    | .elem _ _ ch => findPathL p ch

/-- The path into a forest of the first pre-order node satisfying `p`. -/
def findPathL (p : Node → Bool) : List Node → Option (List Nat)
  | [] => none
  | n :: ns =>
      match findPathN p n with
      | some q => some (0 :: q)
      | none =>
          match findPathL p ns with
          | some [] => some []
          | some (i :: q) => some ((i + 1) :: q)
          | none => none

end

/-- Functional replacement of the node at a path by its image under `f`;
out-of-range paths leave the forest unchanged. -/
def replaceAtL (f : Node → Node) : List Nat → List Node → List Node
  | [], l => l
  | _ :: _, [] => []
  | [0], n :: ns => f n :: ns
  | 0 :: i :: rest, n :: ns =>
      (match n with
       | .text s => Node.text s
       | .elem t c ch => Node.elem t c (replaceAtL f (i :: rest) ch)) :: ns
  | (i + 1) :: rest, n :: ns => n :: replaceAtL f (i :: rest) ns
termination_by p l => (p.length, l.length)

/-- Descends `f`-replacement at a relative path into an element's child
list; text nodes have no children and are unchanged. -/
def replaceInsideN (f : Node → Node) (q : List Nat) : Node → Node
  | .text s => .text s
  | .elem t c ch => .elem t c (replaceAtL f q ch)

/-- The shape of a node that is not about its subtree: the character data
of a text node, or the tag and class list of an element. -/
def nodeSig : Node → String ⊕ (String × List String)
  | .text s => Sum.inl s
  | .elem t c _ => Sum.inr (t, c)

/-- The path of the node hero.js rewrites: the first `h1` descendant of the
first `.hero` element of the document, when both exist. -/
def heroH1Path (doc : List Node) : Option (List Nat) :=
  match findPathL isHeroEl doc with
  | none => none
  | some hp =>
      match nodeAtL doc hp with
      | some (.elem _ _ ch) => (findPathL isH1El ch).map (hp ++ ·)
      | _ => none

/-- The node addressed by a path relative to `n`: the empty path is `n`
itself, a nonempty path descends into the children. -/
def nodeAtN (n : Node) : List Nat → Option Node
  | [] => some n
  | i :: rest =>
      match n with
      | .text _ => none
      | .elem _ _ ch => nodeAtL ch (i :: rest)

/-- Whether a node is a DOM element (`block.children` lists only these). -/
def isElemNode : Node → Bool
  | .elem _ _ _ => true
  | .text _ => false

/-- The `innerHTML` read on a node; only elements have one. -/
def innerHTMLN : Node → String
  | .text _ => ""
  | .elem _ _ ch => serL ch

/-- One step of the list-based decorator of
docs/explanation/block-system.md: `document.createElement('ul')`-style
fresh `li` whose `innerHTML` is assigned the row's `innerHTML`. -/
def mkLi (row : Node) : Node :=
  Node.elem "li" [] (parseNodes (innerHTMLN row))

/-- The "List-Based Blocks" decorator of
docs/explanation/block-system.md: one `li` per element child of the
block, in order, the block's previous children replaced by the single
`ul`. -/
def decorateList : Node → Node
  | .elem t c ch =>
      Node.elem t c [Node.elem "ul" [] ((ch.filter isElemNode).map mkLi)]
  | .text s => .text s

/-- The content state of a data-loading block. -/
inductive BContent where
  | initial
  | rendered (data : String)
  | message (s : String)
deriving DecidableEq

/-- A data-loading block: its `dataset.source` URL and its content. -/
structure DataBlock where
  source : String
  content : BContent
deriving DecidableEq

/-- The "Async Data Loading" decorator of
docs/explanation/block-system.md. `env` maps a URL to the outcome of
`fetch` plus JSON parsing (`Except.error` models either step throwing).
The result pairs the decorator's own outcome (`Except.error` would mean
an exception escaping it) with the list of URLs fetched. -/
def decorateData (env : String → Except String String) (b : DataBlock) :
    Except String DataBlock × List String :=
  match env b.source with
  | .ok d => (.ok { b with content := .rendered d }, [b.source])
  | .error _ => (.ok { b with content := .message "Failed to load content" }, [b.source])

/-- An event in the page-load trace. `eager n` and `lazy n` are the
abstract internal steps of `loadEager(document)` and
`loadLazy(document)`; `delayedInvoke` is the call to `loadDelayed()`;
`delayedCss` its synchronous `loadCSS`; `importDelayed` the dynamic
loading of delayed.js fired later by the timer. -/
inductive Ev where
  | eager (n : Nat)
  | lazy (n : Nat)
  | delayedInvoke
  | delayedCss
  | importDelayed
deriving DecidableEq

/-- Modelled from the spec: `loadDelayed` of scripts/scripts.js is not in
the repository snapshot; docs/reference/scripts-api.md gives its flow as
`window.setTimeout(() => import('./delayed.js'), 3000)` followed by a
synchronous `loadCSS`. The first component is the events it runs before
returning, the second the callbacks left on the timer queue. -/
def loadDelayedModel : List Ev × List (List Ev) :=
  ([Ev.delayedInvoke, Ev.delayedCss], [[Ev.importDelayed]])

/-- Modelled from the spec: the automatic initialization of
scripts/scripts.js is not in the repository snapshot;
docs/reference/scripts-api.md gives it as `await loadEager(document);
await loadLazy(document); loadDelayed();`. Awaiting a phase appends its
whole event list before the next phase contributes anything; the timer
queue is what `loadDelayed` scheduled and is not awaited. -/
def initPage (eagerEvs lazyEvs : List Ev) : List Ev × List (List Ev) :=
  (eagerEvs ++ lazyEvs ++ loadDelayedModel.1, loadDelayedModel.2)

/-- The full trace of a page load: the synchronous/awaited part followed
by the timer callbacks once they fire. -/
def fullTrace (eagerEvs lazyEvs : List Ev) : List Ev :=
  (initPage eagerEvs lazyEvs).1 ++ (initPage eagerEvs lazyEvs).2.flatten

/-- Modelled from the spec: the sanitizing character map of
scripts/aem.js's `toClassName` (not in the repository snapshot), per
docs: lowercase the name and turn every character outside `[0-9a-z]`
into a dash. ASCII case folding is modelled. -/
def sanChar (c : Char) : Char :=
  if 'A' ≤ c ∧ c ≤ 'Z' then Char.ofNat (c.toNat + 32)
  else if ('a' ≤ c ∧ c ≤ 'z') ∨ ('0' ≤ c ∧ c ≤ '9') then c
  else '-'

/-- Collapses every run of consecutive dashes to a single dash. -/
def squeezeDashes : List Char → List Char
  | [] => []
  | [c] => [c]
  | a :: b :: rest =>
      if a = '-' ∧ b = '-' then squeezeDashes (b :: rest)
      else a :: squeezeDashes (b :: rest)

/-- Drops the trailing run of dashes. -/
def dropTrailingDashes : List Char → List Char
  | [] => []
  | c :: rest =>
      let r := dropTrailingDashes rest
      if r.isEmpty ∧ c = '-' then [] else c :: r

/-- Modelled from the spec: scripts/aem.js's `toClassName` is not in the
repository snapshot; docs/reference (part_002) specifies a pure sanitizer
to kebab-case with the examples `My Block Name ↦ my-block-name`,
`Hello  World!!! ↦ hello-world`, `100% Awesome ↦ 100-awesome`. -/
def toClassName (name : String) : String :=
  ⟨dropTrailingDashes ((squeezeDashes (name.toList.map sanChar)).dropWhile (· = '-'))⟩

/-- A character legal in a kebab-case class name. -/
def isKebabChar (c : Char) : Bool :=
  (decide ('a' ≤ c) && decide (c ≤ 'z')) ||
  (decide ('0' ≤ c) && decide (c ≤ '9')) || c == '-'

/-- No two consecutive dashes. -/
def noDoubleDash : List Char → Bool
  | a :: b :: rest => !(a == '-' && b == '-') && noDoubleDash (b :: rest)
  | _ => true

/-- A valid kebab-case class name: only lowercase alphanumerics and
single dashes, neither starting nor ending with a dash. -/
def isKebab (s : String) : Bool :=
  s.toList.all isKebabChar && noDoubleDash s.toList &&
  (match s.toList with
   | [] => true
   | c :: _ => c != '-') &&
  (match s.toList.getLast? with
   | some c => c != '-'
   | none => true)

/-- A configuration value: a single string, or an array when a key has
multiple values. -/
inductive CfgVal where
  | one (s : String)
  | many (vs : List String)
deriving DecidableEq

/-- The value cell of a block configuration row: plain text, link cells
(the anchors' `href`s), or image cells (the images' `src`s). -/
inductive Cell where
  | txt (s : String)
  | links (hrefs : List String)
  | images (srcs : List String)
deriving DecidableEq

/-- Modelled from the spec: how `readBlockConfig` turns one value cell
into a configuration value, per docs/reference (part_002): links yield
their `href`, images their `src`, multiple values an array. -/
def cellValue : Cell → CfgVal
  | .txt s => .one s
  | .links [h] => .one h
  | .links hs => .many hs
  | .images [s] => .one s
  | .images srcs => .many srcs

/-- Modelled from the spec: scripts/aem.js's `readBlockConfig` is not in
the repository snapshot; docs/reference (part_002) specifies that each
two-cell key/value row maps the sanitized key to its value. Rows are
given as (key text, value cell) pairs; the result is the key-value
object as an association list in row order. -/
def readBlockConfig (rows : List (String × Cell)) : List (String × CfgVal) :=
  rows.map fun kv => (toClassName kv.1, cellValue kv.2)

/-- A hero document whose `h1` text `FeDXDDXX` passes the `FeDX` guard
and still passes it after one run, because the characters `D` and `X`
left on either side of the inserted spans are adjacent text again. -/
def heroDouble : List Node :=
  [Node.elem "div" ["hero"] [Node.elem "h1" [] [Node.text "FeDXDDXX"]]]

/-- A document with two `.hero` blocks: the first has no `h1`, the second
has an `h1` that passes the guard. -/
def heroPairDoc : List Node :=
  [Node.elem "div" ["hero"] [],
   Node.elem "div" ["hero"] [Node.elem "h1" [] [Node.text "FeDX"]]]

/-- The second block of `heroPairDoc` standing alone as a document. -/
def heroSoloDoc : List Node :=
  [Node.elem "div" ["hero"] [Node.elem "h1" [] [Node.text "FeDX"]]]

/-- A document with a sibling before the hero block and a sibling row
inside it, for exercising the frame property. -/
def heroFrameDoc : List Node :=
  [Node.elem "head" [] [Node.text "T"],
   Node.elem "div" ["hero"]
     [Node.elem "p" [] [Node.text "row"],
      Node.elem "h1" [] [Node.text "FeDX"]]]

/-- A predicate that, like the CSS selectors hero.js uses, looks only at a
node's tag and classes, never at its children. -/
def childBlind (p : Node → Bool) : Prop :=
  ∀ t c ch ch', p (.elem t c ch) = p (.elem t c ch')

theorem childBlind_isHeroEl : childBlind isHeroEl := by
  intro t c ch ch'; rfl

theorem childBlind_isH1El : childBlind isH1El := by
  intro t c ch ch'; rfl

mutual

theorem updFirstN_not_found (p : Node → Bool) (f : Node → Node) (n : Node)
    (h : (updFirstN p f n).2 = false) : (updFirstN p f n).1 = n := by
  cases n with
  | text s =>
      by_cases hp : p (Node.text s) = true
      · simp [updFirstN, hp] at h
      · simp [updFirstN, hp]
  | elem t c ch =>
      by_cases hp : p (Node.elem t c ch) = true
      · simp [updFirstN, hp] at h
      · simp only [updFirstN, hp, Bool.false_eq_true, ite_false] at h ⊢
        rw [updFirstL_not_found p f ch h]

theorem updFirstL_not_found (p : Node → Bool) (f : Node → Node) (l : List Node)
    (h : (updFirstL p f l).2 = false) : (updFirstL p f l).1 = l := by
  cases l with
  | nil => rfl
  | cons n ns =>
      simp only [updFirstL] at h ⊢
      cases hu : updFirstN p f n with
      | mk m b =>
        cases b with
        | true => simp [hu] at h
        | false =>
            simp only [hu] at h ⊢
            have hm : m = n := by
              have h2 := updFirstN_not_found p f n (by rw [hu])
              rwa [hu] at h2
            rw [hm, updFirstL_not_found p f ns h]

end

mutual

theorem updFirstN_found_eq (p : Node → Bool) (f : Node → Node) (n : Node) :
    (updFirstN p f n).2 = (findFirstN p n).isSome := by
  cases n with
  | text s =>
      by_cases hp : p (Node.text s) = true
      · simp [updFirstN, findFirstN, hp]
      · simp [updFirstN, findFirstN, hp]
  | elem t c ch =>
      by_cases hp : p (Node.elem t c ch) = true
      · simp [updFirstN, findFirstN, hp]
      · simp only [updFirstN, findFirstN, hp, Bool.false_eq_true, ite_false]
        exact updFirstL_found_eq p f ch

theorem updFirstL_found_eq (p : Node → Bool) (f : Node → Node) (l : List Node) :
    (updFirstL p f l).2 = (findFirstL p l).isSome := by
  cases l with
  | nil => rfl
  | cons n ns =>
      have hb := updFirstN_found_eq p f n
      simp only [updFirstL, findFirstL]
      cases hu : updFirstN p f n with
      | mk m b =>
        rw [hu] at hb
        cases hf : findFirstN p n with
        | some m0 => rw [hf] at hb; simp at hb; simp [hb]
        | none =>
            rw [hf] at hb; simp at hb; simp only [hb]
            exact updFirstL_found_eq p f ns

end

theorem updFirstL_of_find_none (p : Node → Bool) (f : Node → Node) (l : List Node)
    (h : findFirstL p l = none) : (updFirstL p f l).1 = l := by
  apply updFirstL_not_found
  rw [updFirstL_found_eq, h]
  rfl

mutual

theorem updFirstN_fix (p : Node → Bool) (f : Node → Node) (n m : Node)
    (hf : findFirstN p n = some m) (hm : f m = m) : (updFirstN p f n).1 = n := by
  cases n with
  | text s =>
      by_cases hp : p (Node.text s) = true
      · simp only [findFirstN, hp, if_true, Option.some.injEq] at hf
        subst hf
        simp [updFirstN, hp, hm]
      · simp [findFirstN, hp] at hf
  | elem t c ch =>
      by_cases hp : p (Node.elem t c ch) = true
      · simp only [findFirstN, hp, if_true, Option.some.injEq] at hf
        subst hf
        simp [updFirstN, hp, hm]
      · simp only [findFirstN, hp, Bool.false_eq_true, ite_false] at hf
        simp only [updFirstN, hp, Bool.false_eq_true, ite_false]
        rw [updFirstL_fix p f ch m hf hm]

theorem updFirstL_fix (p : Node → Bool) (f : Node → Node) (l : List Node) (m : Node)
    (hf : findFirstL p l = some m) (hm : f m = m) : (updFirstL p f l).1 = l := by
  cases l with
  | nil => simp [findFirstL] at hf
  | cons n ns =>
      simp only [findFirstL] at hf
      simp only [updFirstL]
      cases hfn : findFirstN p n with
      | some m0 =>
          rw [hfn] at hf
          have hm0 : m0 = m := by simpa using hf
          subst hm0
          have hb : (updFirstN p f n).2 = true := by
            rw [updFirstN_found_eq, hfn]; rfl
          cases hu : updFirstN p f n with
          | mk m1 b =>
            rw [hu] at hb; subst hb
            have h1 : m1 = n := by
              have h2 := updFirstN_fix p f n m0 hfn hm
              rwa [hu] at h2
            simp [h1]
      | none =>
          rw [hfn] at hf
          have hb : (updFirstN p f n).2 = false := by
            rw [updFirstN_found_eq, hfn]; rfl
          cases hu : updFirstN p f n with
          | mk m1 b =>
            rw [hu] at hb; subst hb
            have h1 : m1 = n := by
              have h2 := updFirstN_not_found p f n (by rw [hu])
              rwa [hu] at h2
            simp only [h1]
            rw [updFirstL_fix p f ns m hf hm]

end

/-- A node satisfying `p` is its own first `p`-match. -/
theorem findFirstN_self (p : Node → Bool) (n : Node) (h : p n = true) :
    findFirstN p n = some n := by
  cases n <;> simp [findFirstN, h]

mutual

theorem findFirstN_updFirstN (p : Node → Bool) (f : Node → Node) (hcb : childBlind p)
    (n m : Node) (hf : findFirstN p n = some m) (hpm : p (f m) = true) :
    findFirstN p (updFirstN p f n).1 = some (f m) := by
  cases n with
  | text s =>
      by_cases hp : p (Node.text s) = true
      · simp only [findFirstN, hp, if_true, Option.some.injEq] at hf
        subst hf
        simp only [updFirstN, hp, if_true]
        exact findFirstN_self p _ hpm
      · simp [findFirstN, hp] at hf
  | elem t c ch =>
      by_cases hp : p (Node.elem t c ch) = true
      · simp only [findFirstN, hp, if_true, Option.some.injEq] at hf
        subst hf
        simp only [updFirstN, hp, if_true]
        exact findFirstN_self p _ hpm
      · simp only [findFirstN, hp, Bool.false_eq_true, ite_false] at hf
        simp only [updFirstN, hp, Bool.false_eq_true, ite_false]
        have hp' : p (Node.elem t c (updFirstL p f ch).1) = false := by
          rw [hcb t c _ ch]
          simpa using hp
        simp only [findFirstN, hp', Bool.false_eq_true, ite_false]
        exact findFirstL_updFirstL p f hcb ch m hf hpm

theorem findFirstL_updFirstL (p : Node → Bool) (f : Node → Node) (hcb : childBlind p)
    (l : List Node) (m : Node) (hf : findFirstL p l = some m) (hpm : p (f m) = true) :
    findFirstL p (updFirstL p f l).1 = some (f m) := by
  cases l with
  | nil => simp [findFirstL] at hf
  | cons n ns =>
      simp only [findFirstL] at hf
      simp only [updFirstL]
      cases hfn : findFirstN p n with
      | some m0 =>
          rw [hfn] at hf
          have hm0 : m0 = m := by simpa using hf
          subst hm0
          have hb : (updFirstN p f n).2 = true := by
            rw [updFirstN_found_eq, hfn]; rfl
          cases hu : updFirstN p f n with
          | mk m1 b =>
            rw [hu] at hb; subst hb
            have h1 : findFirstN p m1 = some (f m0) := by
              have h2 := findFirstN_updFirstN p f hcb n m0 hfn hpm
              rwa [hu] at h2
            simp [findFirstL, h1]
      | none =>
          rw [hfn] at hf
          have hb : (updFirstN p f n).2 = false := by
            rw [updFirstN_found_eq, hfn]; rfl
          cases hu : updFirstN p f n with
          | mk m1 b =>
            rw [hu] at hb; subst hb
            have h1 : m1 = n := by
              have h2 := updFirstN_not_found p f n (by rw [hu])
              rwa [hu] at h2
            subst h1
            simp only [findFirstL, hfn]
            exact findFirstL_updFirstL p f hcb ns m hf hpm

end

/-- `decorateHeroEl` leaves the found `.hero` element unchanged when it
contains no `h1` descendant. -/
theorem decorateHeroEl_no_h1 (t : String) (c : List String) (ch : List Node)
    (h : findFirstL isH1El ch = none) :
    decorateHeroEl (Node.elem t c ch) = Node.elem t c ch := by
  simp only [decorateHeroEl]
  rw [updFirstL_of_find_none _ _ _ h]

/-- `rewriteH1` keeps the element's tag and classes. -/
theorem nodeSig_rewriteH1 (n : Node) : nodeSig (rewriteH1 n) = nodeSig n := by
  cases n with
  | text s => rfl
  | elem t c ch =>
      simp only [rewriteH1]
      split <;> rfl

/-- `rewriteH1` maps `h1` elements to `h1` elements. -/
theorem isH1El_rewriteH1 (n : Node) : isH1El (rewriteH1 n) = isH1El n := by
  cases n with
  | text s => rfl
  | elem t c ch =>
      simp only [rewriteH1]
      split <;> rfl

/-- `decorateHeroEl` keeps the element's tag and classes, so the rewritten
block still matches `.hero`. -/
theorem isHeroEl_decorateHeroEl (n : Node) : isHeroEl (decorateHeroEl n) = isHeroEl n := by
  cases n with
  | text s => rfl
  | elem t c ch => rfl

/-- A node matching `.hero` is an element. -/
theorem isHeroEl_elem (n : Node) (h : isHeroEl n = true) :
    ∃ t c ch, n = Node.elem t c ch := by
  cases n with
  | text s => simp [isHeroEl] at h
  | elem t c ch => exact ⟨t, c, ch, rfl⟩

mutual

/-- The node found by `querySelector` on a single node satisfies the
selector. -/
theorem findFirstN_sat (p : Node → Bool) (n m : Node)
    (h : findFirstN p n = some m) : p m = true := by
  cases n with
  | text s =>
      by_cases hp : p (Node.text s) = true
      · simp only [findFirstN, hp, if_true, Option.some.injEq] at h
        subst h; exact hp
      · simp [findFirstN, hp] at h
  | elem t c ch =>
      by_cases hp : p (Node.elem t c ch) = true
      · simp only [findFirstN, hp, if_true, Option.some.injEq] at h
        subst h; exact hp
      · simp only [findFirstN, hp, Bool.false_eq_true, ite_false] at h
        exact findFirstL_sat p ch m h

/-- The node found by `querySelector` on a forest satisfies the selector. -/
theorem findFirstL_sat (p : Node → Bool) (l : List Node) (m : Node)
    (h : findFirstL p l = some m) : p m = true := by
  cases l with
  | nil => simp [findFirstL] at h
  | cons n ns =>
      simp only [findFirstL] at h
      cases hfn : findFirstN p n with
      | some m0 =>
          rw [hfn] at h
          have hm : m0 = m := by simpa using h
          subst hm
          exact findFirstN_sat p n m0 hfn
      | none =>
          rw [hfn] at h
          exact findFirstL_sat p ns m h

end

theorem nodeAtL_cons_succ (x : Node) (xs : List Node) (j : Nat) (r : List Nat) :
    nodeAtL (x :: xs) ((j + 1) :: r) = nodeAtL xs (j :: r) := rfl

theorem nodeAtL_cons_zero (n : Node) (ns : List Node) (q : List Nat) :
    nodeAtL (n :: ns) (0 :: q) = nodeAtN n q := by
  cases q with
  | nil => rfl
  | cons i r => cases n <;> rfl

/-- `findPathL` never answers the empty path: a forest match lies at some
index. -/
theorem findPathL_ne_nil (p : Node → Bool) (l : List Node) :
    findPathL p l ≠ some [] := by
  induction l with
  | nil => simp [findPathL]
  | cons n ns ih =>
      simp only [findPathL]
      cases findPathN p n with
      | some q => simp
      | none =>
          cases h : findPathL p ns with
          | none => simp
          | some hp =>
              cases hp with
              | nil => exact absurd h ih
              | cons i q => simp

theorem findPathN_nil (p : Node → Bool) (n : Node) (h : findPathN p n = some []) :
    p n = true := by
  by_cases hp : p n = true
  · exact hp
  · exfalso
    cases n with
    | text s => simp [findPathN, hp] at h
    | elem t c ch =>
        simp only [findPathN, hp, Bool.false_eq_true, ite_false] at h
        exact findPathL_ne_nil p ch h

theorem findPathN_cons (p : Node → Bool) (n : Node) (i : Nat) (r : List Nat)
    (h : findPathN p n = some (i :: r)) : p n = false := by
  by_cases hp : p n = true
  · cases n <;> simp [findPathN, hp] at h
  · simpa using hp

mutual

theorem updFirstN_found_eq_path (p : Node → Bool) (f : Node → Node) (n : Node) :
    (updFirstN p f n).2 = (findPathN p n).isSome := by
  cases n with
  | text s =>
      by_cases hp : p (Node.text s) = true
      · simp [updFirstN, findPathN, hp]
      · simp [updFirstN, findPathN, hp]
  | elem t c ch =>
      by_cases hp : p (Node.elem t c ch) = true
      · simp [updFirstN, findPathN, hp]
      · simp only [updFirstN, findPathN, hp, Bool.false_eq_true, ite_false]
        exact updFirstL_found_eq_path p f ch

theorem updFirstL_found_eq_path (p : Node → Bool) (f : Node → Node) (l : List Node) :
    (updFirstL p f l).2 = (findPathL p l).isSome := by
  cases l with
  | nil => rfl
  | cons n ns =>
      have hb := updFirstN_found_eq_path p f n
      simp only [updFirstL, findPathL]
      cases hu : updFirstN p f n with
      | mk m b =>
        rw [hu] at hb
        cases hf : findPathN p n with
        | some q => rw [hf] at hb; simp at hb; simp [hb]
        | none =>
            rw [hf] at hb; simp at hb; simp only [hb]
            have htail := updFirstL_found_eq_path p f ns
            cases ht : findPathL p ns with
            | none => rw [ht] at htail; simpa using htail
            | some hp =>
                rw [ht] at htail
                cases hp with
                | nil => exact absurd ht (findPathL_ne_nil p ns)
                | cons i q => simpa using htail

end

mutual

theorem updFirstN_replace (p : Node → Bool) (f : Node → Node) (n : Node)
    (i : Nat) (r : List Nat) (h : findPathN p n = some (i :: r)) :
    (updFirstN p f n).1 = replaceInsideN f (i :: r) n := by
  have hp : p n = false := findPathN_cons p n i r h
  cases n with
  | text s => simp [findPathN, hp] at h
  | elem t c ch =>
      simp only [findPathN, hp, Bool.false_eq_true, ite_false] at h
      simp only [updFirstN, hp, Bool.false_eq_true, ite_false, replaceInsideN]
      rw [updFirstL_replace p f ch (i :: r) h]

theorem updFirstL_replace (p : Node → Bool) (f : Node → Node) (l : List Node)
    (hp : List Nat) (h : findPathL p l = some hp) :
    (updFirstL p f l).1 = replaceAtL f hp l := by
  cases l with
  | nil => simp [findPathL] at h
  | cons n ns =>
      simp only [findPathL] at h
      simp only [updFirstL]
      cases hfn : findPathN p n with
      | some q =>
          rw [hfn] at h
          have hhp : hp = 0 :: q := by simpa using h.symm
          subst hhp
          have hb : (updFirstN p f n).2 = true := by
            rw [updFirstN_found_eq_path, hfn]; rfl
          cases hu : updFirstN p f n with
          | mk m b =>
            rw [hu] at hb; subst hb
            cases q with
            | nil =>
                have hpn : p n = true := findPathN_nil p n hfn
                have hm : m = f n := by
                  have : updFirstN p f n = (f n, true) := by
                    cases n <;> simp [updFirstN, hpn]
                  rw [hu] at this
                  exact (Prod.mk.injEq .. ▸ this).1
                cases ns <;> simp [replaceAtL, hm]
            | cons i r =>
                have hm : m = replaceInsideN f (i :: r) n := by
                  have h2 := updFirstN_replace p f n i r hfn
                  rwa [hu] at h2
                subst hm
                cases n with
                | text s => simp [replaceAtL, replaceInsideN]
                | elem t c ch => simp [replaceAtL, replaceInsideN]
      | none =>
          rw [hfn] at h
          have hb : (updFirstN p f n).2 = false := by
            rw [updFirstN_found_eq_path, hfn]; rfl
          cases hu : updFirstN p f n with
          | mk m b =>
            rw [hu] at hb; subst hb
            have hm : m = n := by
              have h2 := updFirstN_not_found p f n (by rw [hu])
              rwa [hu] at h2
            subst hm
            cases ht : findPathL p ns with
            | none => rw [ht] at h; simp at h
            | some hq =>
                rw [ht] at h
                cases hq with
                | nil => exact absurd ht (findPathL_ne_nil p ns)
                | cons i q =>
                    have hhp : hp = (i + 1) :: q := by simpa using h.symm
                    subst hhp
                    simp only [replaceAtL]
                    rw [updFirstL_replace p f ns (i :: q) ht]

end

mutual

theorem findPathN_sat (p : Node → Bool) (n : Node) (q : List Nat)
    (h : findPathN p n = some q) : ∃ m, nodeAtN n q = some m ∧ p m = true := by
  cases q with
  | nil => exact ⟨n, rfl, findPathN_nil p n h⟩
  | cons i r =>
      have hp : p n = false := findPathN_cons p n i r h
      cases n with
      | text s => simp [findPathN, hp] at h
      | elem t c ch =>
          simp only [findPathN, hp, Bool.false_eq_true, ite_false] at h
          simpa [nodeAtN] using findPathL_sat_path p ch (i :: r) h

theorem findPathL_sat_path (p : Node → Bool) (l : List Node) (hp : List Nat)
    (h : findPathL p l = some hp) : ∃ m, nodeAtL l hp = some m ∧ p m = true := by
  cases l with
  | nil => simp [findPathL] at h
  | cons n ns =>
      simp only [findPathL] at h
      cases hfn : findPathN p n with
      | some q =>
          rw [hfn] at h
          have hhp : hp = 0 :: q := by simpa using h.symm
          subst hhp
          rw [nodeAtL_cons_zero]
          exact findPathN_sat p n q hfn
      | none =>
          rw [hfn] at h
          cases ht : findPathL p ns with
          | none => rw [ht] at h; simp at h
          | some hq =>
              rw [ht] at h
              cases hq with
              | nil => exact absurd ht (findPathL_ne_nil p ns)
              | cons i q =>
                  have hhp : hp = (i + 1) :: q := by simpa using h.symm
                  subst hhp
                  rw [nodeAtL_cons_succ]
                  exact findPathL_sat_path p ns (i :: q) ht

end

/-- Replacement at a path does not change the node at any path that
neither extends nor is extended by it. -/
theorem nodeAt_replaceAt_off (f : Node → Node) (hp : List Nat) (l : List Node) :
    ∀ q : List Nat, ¬ hp <+: q → ¬ q <+: hp →
      nodeAtL (replaceAtL f hp l) q = nodeAtL l q := by
  induction hp, l using replaceAtL.induct f with
  | case1 l =>
      intro q h1 _
      exact absurd List.nil_prefix h1
  | case2 i rest =>
      intro q _ _
      simp [replaceAtL]
  | case3 n ns =>
      intro q h1 h2
      cases q with
      | nil => simp [nodeAtL]
      | cons j r =>
          cases j with
          | zero =>
              exact absurd ⟨r, rfl⟩ h1
          | succ j =>
              simp only [replaceAtL]
              rw [nodeAtL_cons_succ, nodeAtL_cons_succ]
  | case4 i rest n ns ih =>
      intro q h1 h2
      cases q with
      | nil => simp [nodeAtL]
      | cons j r =>
          cases j with
          | zero =>
              cases r with
              | nil => exact absurd ⟨i :: rest, rfl⟩ h2
              | cons r0 r1 =>
                  cases n with
                  | text s => simp only [replaceAtL]
                  | elem t c ch =>
                      simp only [replaceAtL]
                      rw [nodeAtL_cons_zero, nodeAtL_cons_zero]
                      simp only [nodeAtN]
                      apply ih
                      · intro hpre
                        exact h1 (List.cons_prefix_cons.mpr ⟨rfl, hpre⟩)
                      · intro hpre
                        exact h2 (List.cons_prefix_cons.mpr ⟨rfl, hpre⟩)
          | succ j =>
              cases n with
              | text s => simp only [replaceAtL]
              | elem t c ch =>
                  simp only [replaceAtL]
                  rw [nodeAtL_cons_succ, nodeAtL_cons_succ]
  | case5 i rest n ns ih =>
      intro q h1 h2
      cases q with
      | nil => simp [nodeAtL]
      | cons j r =>
          cases j with
          | zero =>
              simp only [replaceAtL]
              rw [nodeAtL_cons_zero, nodeAtL_cons_zero]
          | succ j =>
              simp only [replaceAtL]
              rw [nodeAtL_cons_succ, nodeAtL_cons_succ]
              apply ih
              · intro hpre
                rcases List.cons_prefix_cons.mp hpre with ⟨hij, hpre2⟩
                exact h1 (List.cons_prefix_cons.mpr ⟨by omega, hpre2⟩)
              · intro hpre
                rcases List.cons_prefix_cons.mp hpre with ⟨hij, hpre2⟩
                exact h2 (List.cons_prefix_cons.mpr ⟨by omega, hpre2⟩)

/-- Replacement at a path maps the node at that very path through `f`. -/
theorem nodeAt_replaceAt_self (f : Node → Node) (hp : List Nat) (l : List Node) :
    nodeAtL (replaceAtL f hp l) hp = (nodeAtL l hp).map f := by
  induction hp, l using replaceAtL.induct f with
  | case1 l => simp [replaceAtL, nodeAtL]
  | case2 i rest => simp [replaceAtL, nodeAtL]
  | case3 n ns => simp [replaceAtL, nodeAtL]
  | case4 i rest n ns ih =>
      cases n with
      | text s =>
          simp only [replaceAtL]
          rw [nodeAtL_cons_zero]
          rfl
      | elem t c ch =>
          simp only [replaceAtL]
          rw [nodeAtL_cons_zero, nodeAtL_cons_zero]
          simp only [nodeAtN]
          exact ih ch
  | case5 i rest n ns ih =>
      simp only [replaceAtL]
      rw [nodeAtL_cons_succ, nodeAtL_cons_succ]
      exact ih

/-- Replacement at a path keeps the tag and classes (or text) of every
node on a strictly shorter prefix of the path: ancestors change only
through their subtree. -/
theorem nodeAt_replaceAt_ancestor (f : Node → Node) (hp : List Nat) (l : List Node) :
    ∀ q : List Nat, q <+: hp → q ≠ hp →
      (nodeAtL (replaceAtL f hp l) q).map nodeSig = (nodeAtL l q).map nodeSig := by
  induction hp, l using replaceAtL.induct f with
  | case1 l =>
      intro q hq hne
      exact absurd (List.prefix_nil.mp hq) hne
  | case2 i rest =>
      intro q _ _
      simp [replaceAtL]
  | case3 n ns =>
      intro q hq hne
      have hqn : q = [] := by
        cases q with
        | nil => rfl
        | cons j r =>
            rcases List.cons_prefix_cons.mp hq with ⟨hj, hr⟩
            subst hj
            rw [List.prefix_nil.mp hr] at hne ⊢
            exact absurd rfl hne
      subst hqn
      simp [nodeAtL]
  | case4 i rest n ns ih =>
      intro q hq hne
      cases q with
      | nil => simp [nodeAtL]
      | cons j r =>
          rcases List.cons_prefix_cons.mp hq with ⟨hj, hr⟩
          subst hj
          cases r with
          | nil =>
              cases n with
              | text s => simp only [replaceAtL]
              | elem t c ch =>
                  simp only [replaceAtL]
                  rw [nodeAtL_cons_zero, nodeAtL_cons_zero]
                  simp [nodeAtN, nodeSig]
          | cons r0 r1 =>
              cases n with
              | text s => simp only [replaceAtL]
              | elem t c ch =>
                  simp only [replaceAtL]
                  rw [nodeAtL_cons_zero, nodeAtL_cons_zero]
                  simp only [nodeAtN]
                  apply ih
                  · exact hr
                  · intro hre
                    exact hne (by rw [hre])
  | case5 i rest n ns ih =>
      intro q hq hne
      cases q with
      | nil => simp [nodeAtL]
      | cons j r =>
          rcases List.cons_prefix_cons.mp hq with ⟨hj, hr⟩
          subst hj
          simp only [replaceAtL]
          rw [nodeAtL_cons_succ, nodeAtL_cons_succ]
          apply ih
          · exact List.cons_prefix_cons.mpr ⟨rfl, hr⟩
          · intro hre
            have hrr : r = rest := by simpa using hre
            exact hne (by rw [hrr])

/-- Replacing at a path whose node is a fixed point of `f` changes
nothing. -/
theorem replaceAt_fix (f : Node → Node) (hp : List Nat) (l : List Node) :
    ∀ n : Node, nodeAtL l hp = some n → f n = n → replaceAtL f hp l = l := by
  induction hp, l using replaceAtL.induct f with
  | case1 l => intro n _ _; simp [replaceAtL]
  | case2 i rest => intro n h _; simp [nodeAtL] at h
  | case3 n0 ns =>
      intro n h hfix
      have hn : n0 = n := by simpa [nodeAtL] using h
      subst hn
      simp [replaceAtL, hfix]
  | case4 i rest n0 ns ih =>
      intro n h hfix
      rw [nodeAtL_cons_zero] at h
      cases n0 with
      | text s => simp [nodeAtN] at h
      | elem t c ch =>
          simp only [nodeAtN] at h
          simp only [replaceAtL]
          rw [ih ch n h hfix]
  | case5 i rest n0 ns ih =>
      intro n h hfix
      rw [nodeAtL_cons_succ] at h
      simp only [replaceAtL]
      rw [ih n h hfix]

/-- Two replacement functions that agree on the node actually at the path
produce the same forest. -/
theorem replaceAt_congr (f g : Node → Node) (hp : List Nat) (l : List Node) :
    ∀ n : Node, nodeAtL l hp = some n → f n = g n →
      replaceAtL f hp l = replaceAtL g hp l := by
  induction hp, l using replaceAtL.induct f with
  | case1 l => intro n _ _; simp [replaceAtL]
  | case2 i rest => intro n h _; simp [nodeAtL] at h
  | case3 n0 ns =>
      intro n h hfg
      have hn : n0 = n := by simpa [nodeAtL] using h
      subst hn
      simp [replaceAtL, hfg]
  | case4 i rest n0 ns ih =>
      intro n h hfg
      rw [nodeAtL_cons_zero] at h
      cases n0 with
      | text s => simp [nodeAtN] at h
      | elem t c ch =>
          simp only [nodeAtN] at h
          simp only [replaceAtL]
          rw [ih ch n h hfg]
  | case5 i rest n0 ns ih =>
      intro n h hfg
      rw [nodeAtL_cons_succ] at h
      simp only [replaceAtL]
      rw [ih n h hfg]

/-- Replacing inside the children at a relative path composes with
replacement at an outer path into replacement at the concatenated path. -/
theorem replaceAt_append (f : Node → Node) (hp : List Nat) (l : List Node) :
    ∀ rp : List Nat, hp ≠ [] → rp ≠ [] →
      replaceAtL (replaceInsideN f rp) hp l = replaceAtL f (hp ++ rp) l := by
  induction hp, l using replaceAtL.induct f with
  | case1 l => intro rp h0 _; exact absurd rfl h0
  | case2 i rest =>
      intro rp _ _
      simp [replaceAtL]
  | case3 n ns =>
      intro rp _ h1
      cases rp with
      | nil => exact absurd rfl h1
      | cons r0 r1 =>
          cases n <;> simp [replaceAtL, replaceInsideN]
  | case4 i rest n ns ih =>
      intro rp _ h1
      cases n with
      | text s =>
          simp only [List.cons_append]
          simp only [replaceAtL]
      | elem t c ch =>
          simp only [List.cons_append]
          simp only [replaceAtL]
          rw [ih ch rp (by simp) h1]
          simp
  | case5 i rest n ns ih =>
      intro rp _ h1
      simp only [List.cons_append]
      simp only [replaceAtL]
      rw [ih rp (by simp) h1]
      simp


/-- When hero.js finds its target, the whole script is replacement of the
first `h1` of the first `.hero` at its document path. -/
theorem heroScript_eq_replaceAt (doc : List Node) (hpq : List Nat)
    (h : heroH1Path doc = some hpq) :
    heroScript doc = replaceAtL rewriteH1 hpq doc := by
  unfold heroH1Path at h
  cases hfp : findPathL isHeroEl doc with
  | none => rw [hfp] at h; simp at h
  | some hp =>
      rw [hfp] at h
      dsimp only at h
      cases hna : nodeAtL doc hp with
      | none => rw [hna] at h; simp at h
      | some m =>
          rw [hna] at h
          cases m with
          | text s => simp at h
          | elem ht hc hch =>
              dsimp only at h
              cases hrp : findPathL isH1El hch with
              | none => rw [hrp] at h; simp at h
              | some rp =>
                  rw [hrp] at h
                  simp only [Option.map_some', Option.some.injEq] at h
                  have hne_hp : hp ≠ [] := by
                    intro he
                    exact findPathL_ne_nil isHeroEl doc (he ▸ hfp)
                  have hne_rp : rp ≠ [] := by
                    intro he
                    exact findPathL_ne_nil isH1El hch (he ▸ hrp)
                  have hinner := updFirstL_replace isH1El rewriteH1 hch rp hrp
                  have hcg : decorateHeroEl (Node.elem ht hc hch)
                      = replaceInsideN rewriteH1 rp (Node.elem ht hc hch) := by
                    simp [decorateHeroEl, replaceInsideN, hinner]
                  calc heroScript doc
                      = replaceAtL decorateHeroEl hp doc :=
                        updFirstL_replace isHeroEl decorateHeroEl doc hp hfp
                    _ = replaceAtL (replaceInsideN rewriteH1 rp) hp doc :=
                        replaceAt_congr _ _ hp doc _ hna hcg
                    _ = replaceAtL rewriteH1 (hp ++ rp) doc :=
                        replaceAt_append rewriteH1 hp doc rp hne_hp hne_rp
                    _ = replaceAtL rewriteH1 hpq doc := by rw [h]

/-- When hero.js has no target the script changes nothing. -/
theorem heroScript_nopath (doc : List Node) (h : heroH1Path doc = none) :
    heroScript doc = doc := by
  cases hfp : findPathL isHeroEl doc with
  | none =>
      apply updFirstL_not_found
      rw [updFirstL_found_eq_path, hfp]
      rfl
  | some hp =>
      unfold heroH1Path at h
      rw [hfp] at h
      dsimp only at h
      obtain ⟨m, hna, hsat⟩ := findPathL_sat_path isHeroEl doc hp hfp
      obtain ⟨t, c, ch, rfl⟩ := isHeroEl_elem m hsat
      rw [hna] at h
      dsimp only at h
      cases hrp : findPathL isH1El ch with
      | some rp => rw [hrp] at h; simp at h
      | none =>
          have hchf : (updFirstL isH1El rewriteH1 ch).1 = ch := by
            apply updFirstL_not_found
            rw [updFirstL_found_eq_path, hrp]
            rfl
          have hfix : decorateHeroEl (Node.elem t c ch) = Node.elem t c ch := by
            simp [decorateHeroEl, hchf]
          calc heroScript doc
              = replaceAtL decorateHeroEl hp doc :=
                updFirstL_replace isHeroEl decorateHeroEl doc hp hfp
            _ = doc := replaceAt_fix _ hp doc _ hna hfix

/-- Every character the sanitizing map produces is legal in kebab-case. -/
theorem isKebabChar_sanChar (c : Char) : isKebabChar (sanChar c) = true := by
  unfold sanChar
  split
  · rename_i h
    obtain ⟨h1, h2⟩ := h
    rw [Char.le_def] at h1 h2
    have hA : (65 : Nat) ≤ c.toNat := h1
    have hZ : c.toNat ≤ 90 := h2
    have hv : (c.toNat + 32).isValidChar := by left; omega
    have he : (Char.ofNat (c.toNat + 32)).toNat = c.toNat + 32 := by
      simp only [Char.ofNat, hv, dite_true]
      simp only [Char.ofNatAux, Char.toNat, UInt32.toNat, BitVec.toNat_ofNatLt]
    simp only [isKebabChar, Bool.or_eq_true, Bool.and_eq_true, decide_eq_true_eq]
    left
    left
    rw [Char.le_def, Char.le_def]
    constructor
    · show (97 : Nat) ≤ (Char.ofNat (c.toNat + 32)).toNat
      omega
    · show (Char.ofNat (c.toNat + 32)).toNat ≤ (122 : Nat)
      omega
  · split
    · rename_i h2
      simp only [isKebabChar, Bool.or_eq_true, Bool.and_eq_true, decide_eq_true_eq]
      rcases h2 with h2 | h2
      · exact Or.inl (Or.inl h2)
      · exact Or.inl (Or.inr h2)
    · rfl

/-- The head of a squeezed cons is the original head. -/
theorem squeezeDashes_head (rest : List Char) :
    ∀ b : Char, (squeezeDashes (b :: rest)).head? = some b := by
  induction rest with
  | nil => intro b; rfl
  | cons c r ih =>
      intro b
      by_cases h : b = '-' ∧ c = '-'
      · obtain ⟨hb, hc⟩ := h
        subst hb
        subst hc
        simp only [squeezeDashes]
        rw [if_pos ⟨trivial, trivial⟩]
        exact ih '-'
      · simp only [squeezeDashes]
        rw [if_neg h]
        rfl

/-- Squeezing preserves an all-characters predicate. -/
theorem all_squeezeDashes (P : Char → Bool) (l : List Char) (h : l.all P = true) :
    (squeezeDashes l).all P = true := by
  induction l using squeezeDashes.induct with
  | case1 => rfl
  | case2 c => simpa [squeezeDashes] using h
  | case3 a b rest hd ih =>
      simp only [List.all_cons, Bool.and_eq_true] at h
      simp only [squeezeDashes]
      rw [if_pos hd]
      exact ih (by simp [List.all_cons, h.2.1, h.2.2])
  | case4 a b rest hd ih =>
      simp only [List.all_cons, Bool.and_eq_true] at h
      simp only [squeezeDashes]
      rw [if_neg hd]
      simp only [List.all_cons, Bool.and_eq_true]
      exact ⟨h.1, ih (by simp [List.all_cons, h.2.1, h.2.2])⟩

/-- Squeezing leaves no two consecutive dashes. -/
theorem noDoubleDash_squeezeDashes (l : List Char) :
    noDoubleDash (squeezeDashes l) = true := by
  induction l using squeezeDashes.induct with
  | case1 => rfl
  | case2 c => rfl
  | case3 a b rest hd ih =>
      simp only [squeezeDashes]
      rw [if_pos hd]
      exact ih
  | case4 a b rest hd ih =>
      simp only [squeezeDashes]
      rw [if_neg hd]
      cases hX : squeezeDashes (b :: rest) with
      | nil => rfl
      | cons x xs =>
          have hx : x = b := by
            have h2 := squeezeDashes_head rest b
            rw [hX] at h2
            simpa using h2
          subst hx
          rw [hX] at ih
          simp only [noDoubleDash, Bool.and_eq_true]
          refine ⟨?_, ih⟩
          simp only [Bool.not_eq_true']
          by_cases ha : a = '-'
          · by_cases hb : x = '-'
            · exact absurd ⟨ha, hb⟩ hd
            · simp [hb]
          · simp [ha]

/-- `noDoubleDash` holds of any tail. -/
theorem noDoubleDash_cons (x : Char) (l : List Char)
    (h : noDoubleDash (x :: l) = true) : noDoubleDash l = true := by
  cases l with
  | nil => rfl
  | cons y ys =>
      simp only [noDoubleDash, Bool.and_eq_true] at h
      exact h.2

/-- `noDoubleDash` holds of any suffix. -/
theorem noDoubleDash_suffix (l2 : List Char) :
    ∀ l1 : List Char, noDoubleDash (l1 ++ l2) = true → noDoubleDash l2 = true := by
  intro l1
  induction l1 with
  | nil => exact id
  | cons x xs ih =>
      intro h
      exact ih (noDoubleDash_cons x (xs ++ l2) h)

/-- `noDoubleDash` holds of any prefix. -/
theorem noDoubleDash_prefix_part (l1 : List Char) :
    ∀ l2 : List Char, noDoubleDash (l1 ++ l2) = true → noDoubleDash l1 = true := by
  induction l1 with
  | nil => intro l2 _; rfl
  | cons x xs ih =>
      intro l2 h
      cases xs with
      | nil => rfl
      | cons y ys =>
          simp only [List.cons_append, noDoubleDash, Bool.and_eq_true] at h ⊢
          exact ⟨h.1, ih l2 h.2⟩

/-- The head surviving `dropWhile (· = '-')` is not a dash. -/
theorem head_dropWhile_dash (l : List Char) :
    ∀ x : Char, (l.dropWhile (· = '-')).head? = some x → x ≠ '-' := by
  induction l with
  | nil => intro x h; simp at h
  | cons c rest ih =>
      intro x h
      by_cases hc : c = '-'
      · rw [List.dropWhile_cons_of_pos (by simp [hc])] at h
        exact ih x h
      · rw [List.dropWhile_cons_of_neg (by simp [hc])] at h
        simp only [List.head?_cons, Option.some.injEq] at h
        intro he
        exact hc (h.trans he)

/-- `dropTrailingDashes` yields a prefix of its input. -/
theorem dropTrailingDashes_pre (l : List Char) :
    dropTrailingDashes l <+: l := by
  induction l with
  | nil => exact List.prefix_refl []
  | cons c rest ih =>
      simp only [dropTrailingDashes]
      split
      · exact ⟨c :: rest, rfl⟩
      · exact List.cons_prefix_cons.mpr ⟨rfl, ih⟩

/-- The last character surviving `dropTrailingDashes` is not a dash. -/
theorem getLast_dropTrailingDashes (l : List Char) :
    ∀ x : Char, (dropTrailingDashes l).getLast? = some x → x ≠ '-' := by
  induction l with
  | nil => intro x h; simp [dropTrailingDashes] at h
  | cons c rest ih =>
      intro x h
      simp only [dropTrailingDashes] at h
      split at h
      · simp at h
      · rename_i hcond
        cases hr : dropTrailingDashes rest with
        | nil =>
            rw [hr] at h
            simp only [List.getLast?_singleton, Option.some.injEq] at h
            subst h
            intro hx
            exact hcond ⟨by simp [hr], hx⟩
        | cons y ys =>
            rw [hr] at h
            rw [List.getLast?_cons_cons] at h
            exact ih x (hr ▸ h)

/-- A nonempty prefix starts with the same head. -/
theorem head_eq_of_pre (A B : List Char) (h : A <+: B) :
    ∀ x : Char, A.head? = some x → B.head? = some x := by
  obtain ⟨t, rfl⟩ := h
  intro x hx
  cases A with
  | nil => simp at hx
  | cons a as => simpa using hx

/-- Assembles kebab-validity from its four parts. -/
theorem isKebab_of_parts (l : List Char)
    (h1 : l.all isKebabChar = true) (h2 : noDoubleDash l = true)
    (h3 : ∀ x, l.head? = some x → x ≠ '-')
    (h4 : ∀ x, l.getLast? = some x → x ≠ '-') :
    isKebab (String.mk l) = true := by
  unfold isKebab
  have htl : (String.mk l).toList = l := rfl
  rw [htl, h1, h2]
  simp only [Bool.true_and]
  rw [Bool.and_eq_true]
  constructor
  · cases hl : l with
    | nil => rfl
    | cons c cs =>
        have hc := h3 c (by rw [hl]; rfl)
        simpa using hc
  · cases hg : l.getLast? with
    | none => rfl
    | some x =>
        have hx := h4 x hg
        simpa using hx

/-- C8 auxiliary: every output of `toClassName` is kebab-case. -/
theorem isKebab_toClassName (s : String) : isKebab (toClassName s) = true := by
  unfold toClassName
  apply isKebab_of_parts
  · rw [List.all_eq_true]
    intro x hx
    have hx2 := (dropTrailingDashes_pre _).subset hx
    have hx3 := (List.dropWhile_suffix _).subset hx2
    have hall : (squeezeDashes (s.toList.map sanChar)).all isKebabChar = true := by
      apply all_squeezeDashes
      rw [List.all_eq_true]
      intro y hy
      rw [List.mem_map] at hy
      obtain ⟨c, _, rfl⟩ := hy
      exact isKebabChar_sanChar c
    exact (List.all_eq_true.mp hall) x hx3
  · obtain ⟨t1, ht1⟩ := dropTrailingDashes_pre
      ((squeezeDashes (s.toList.map sanChar)).dropWhile (· = '-'))
    apply noDoubleDash_prefix_part _ t1
    rw [ht1]
    obtain ⟨t2, ht2⟩ := List.dropWhile_suffix
      (l := squeezeDashes (s.toList.map sanChar)) (· = '-')
    apply noDoubleDash_suffix _ t2
    rw [ht2]
    exact noDoubleDash_squeezeDashes _
  · intro x hx
    apply head_dropWhile_dash (squeezeDashes (s.toList.map sanChar)) x
    exact head_eq_of_pre _ _ (dropTrailingDashes_pre _) x hx
  · exact getLast_dropTrailingDashes _


/-- C8: `toClassName` is a pure, deterministic sanitizer: on the three
documented examples it produces the documented kebab-case names, every
output is a valid kebab-case class name (lowercase alphanumerics and
single dashes, no dash at either end), and two calls on the same input
give the same result. -/
theorem toClassName_spec :
    toClassName "My Block Name" = "my-block-name" ∧
    toClassName "Hello  World!!!" = "hello-world" ∧
    toClassName "100% Awesome" = "100-awesome" ∧
    ∀ s : String, isKebab (toClassName s) = true ∧ toClassName s = toClassName s :=
  ⟨by decide, by decide, by decide, fun s => ⟨isKebab_toClassName s, rfl⟩⟩

/-- C7: `readBlockConfig` maps each two-cell key/value row to the
sanitized key paired with its value: on the documented example it yields
title, columns, url with their string values; a single link cell yields
its href and a single image cell its src, each as a string; multiple
values yield an array; and in general the configuration object is the
row-wise map of sanitized key to cell value. -/
theorem readBlockConfig_spec :
    readBlockConfig
        [("Title", Cell.txt "My Page Title"), ("Columns", Cell.txt "3"),
         ("URL", Cell.txt "https://example.com")]
      = [("title", CfgVal.one "My Page Title"), ("columns", CfgVal.one "3"),
         ("url", CfgVal.one "https://example.com")] ∧
    (∀ h, cellValue (Cell.links [h]) = CfgVal.one h) ∧
    (∀ s, cellValue (Cell.images [s]) = CfgVal.one s) ∧
    (∀ a b t, cellValue (Cell.links (a :: b :: t)) = CfgVal.many (a :: b :: t)) ∧
    (∀ a b t, cellValue (Cell.images (a :: b :: t)) = CfgVal.many (a :: b :: t)) ∧
    ∀ rows, readBlockConfig rows
      = rows.map fun kv => (toClassName kv.1, cellValue kv.2) :=
  ⟨by decide, fun h => rfl, fun s => rfl, fun a b t => rfl, fun a b t => rfl,
   fun rows => rfl⟩

/-- C1: the claim says every block decorator — the hero script included —
receives the block element as a parameter; in fact hero.js queries the
document globally for `.hero`. Evaluated at the failing input: in a
document whose first `.hero` block has no `h1`, the script changes
nothing even though a later `.hero` block qualifies, while the very same
qualifying block, handed to the script as the only block of a document,
is rewritten. A per-block decorator invoked on each block instance could
not distinguish the two situations. -/
theorem heroScript_not_per_block :
    heroScript heroPairDoc = heroPairDoc ∧ heroScript heroSoloDoc ≠ heroSoloDoc := by
  refine ⟨rfl, ?_⟩
  intro h
  exact absurd (congrArg serL h) (by decide)

/-- C2: the hero script is not idempotent: on a hero whose `h1` text is
`FeDXDDXX`, the second run still passes the `FeDX` guard (the `D` and
`X` stranded around the inserted spans are direct text again) and its
global `DX` replacement matches the `DX` text the first run produced
inside the spans, nesting further spans. -/
theorem heroScript_not_idempotent :
    heroScript (heroScript heroDouble) ≠ heroScript heroDouble := by
  intro h
  exact absurd (congrArg serL h) (by decide)

/-- C3: the three loading phases run in fixed order: the awaited
`loadEager(document)` contributes all its events before any event of the
awaited `loadLazy(document)`, which completes before `loadDelayed()` is
invoked; `loadDelayed` only schedules the dynamic import of delayed.js
on the timer queue, so the import is absent from the awaited page-load
trace and appears only after the timer fires. -/
theorem initPage_phases_ordered (eagerEvs lazyEvs : List Ev)
    (he : Ev.importDelayed ∉ eagerEvs) (hl : Ev.importDelayed ∉ lazyEvs) :
    (initPage eagerEvs lazyEvs).1
        = eagerEvs ++ lazyEvs ++ [Ev.delayedInvoke, Ev.delayedCss] ∧
    (initPage eagerEvs lazyEvs).2 = [[Ev.importDelayed]] ∧
    Ev.importDelayed ∉ (initPage eagerEvs lazyEvs).1 ∧
    Ev.importDelayed ∈ fullTrace eagerEvs lazyEvs := by
  refine ⟨rfl, rfl, ?_, ?_⟩
  · intro hmem
    simp only [initPage, loadDelayedModel, List.mem_append] at hmem
    rcases hmem with (h1 | h1) | h1
    · exact he h1
    · exact hl h1
    · simp at h1
  · simp [fullTrace, initPage, loadDelayedModel]

/-- Witness for C3 at concrete one-event phases. -/
theorem initPage_phases_ordered_witness :
    (initPage [Ev.eager 0] [Ev.lazy 0]).1
        = [Ev.eager 0] ++ [Ev.lazy 0] ++ [Ev.delayedInvoke, Ev.delayedCss] ∧
    (initPage [Ev.eager 0] [Ev.lazy 0]).2 = [[Ev.importDelayed]] ∧
    Ev.importDelayed ∉ (initPage [Ev.eager 0] [Ev.lazy 0]).1 ∧
    Ev.importDelayed ∈ fullTrace [Ev.eager 0] [Ev.lazy 0] :=
  initPage_phases_ordered [Ev.eager 0] [Ev.lazy 0] (by decide) (by decide)

/-- C5: in the data-loading decorator, a failing fetch or JSON parse is
caught inside the decorator: the block's content becomes the static
message `Failed to load content`, the decorator returns normally (no
exception escapes), and the data source was requested exactly once (no
retry). -/
theorem decorateData_catches_failure (env : String → Except String String)
    (b : DataBlock) (err : String) (h : env b.source = .error err) :
    decorateData env b
      = (.ok { b with content := .message "Failed to load content" }, [b.source]) := by
  simp [decorateData, h]

/-- Witness for C5 at a concrete block and an environment whose fetch
throws. -/
theorem decorateData_catches_failure_witness :
    decorateData (fun _ => .error "NetworkError") ⟨"/data.json", .initial⟩
      = (.ok ⟨"/data.json", .message "Failed to load content"⟩, ["/data.json"]) :=
  decorateData_catches_failure (fun _ => .error "NetworkError")
    ⟨"/data.json", .initial⟩ "NetworkError" rfl

/-- C6: the list-based decorator turns a block with row children into the
same element containing exactly one `ul`, with one `li` per element
child, in order, the i-th `li` built from the i-th row's `innerHTML`;
the previous children are removed. -/
theorem decorateList_rows (t : String) (c : List String) (ch : List Node) :
    decorateList (Node.elem t c ch)
        = Node.elem t c [Node.elem "ul" [] ((ch.filter isElemNode).map mkLi)] ∧
    ((ch.filter isElemNode).map mkLi).length = (ch.filter isElemNode).length ∧
    ∀ i : Nat, ((ch.filter isElemNode).map mkLi)[i]?
        = ((ch.filter isElemNode)[i]?).map mkLi := by
  refine ⟨rfl, List.length_map _ _, ?_⟩
  intro i
  simp [List.getElem?_map]

/-- The text-node loop of hero.js reads only the direct text-node
children: elements and their contents contribute nothing. -/
theorem directText_filter (l : List Node) :
    directText (l.filter isTextNode) = directText l := by
  induction l with
  | nil => rfl
  | cons n ns ih =>
      cases n with
      | text s => simp [List.filter_cons, isTextNode, directText, ih]
      | elem t c ch => simp [List.filter_cons, isTextNode, directText, ih]

/-- C4: given the first `.hero` element and its first `h1`, the hero
script rewrites the `h1` exactly when the concatenation of the `h1`'s
direct text-node children, newlines, carriage returns and tabs removed
and trimmed, starts with `FeDX`; the rewrite assigns the `h1` the old
`innerHTML` with every occurrence of `DX` replaced by
`<span class="dx">DX</span>`; and the guard reads only the direct
text-node children, so text inside child elements never triggers it. -/
theorem heroScript_guard (doc : List Node) (ht : String) (hc : List String)
    (hch : List Node) (t1 : String) (c1 : List String) (ch1 : List Node)
    (hhero : findFirstL isHeroEl doc = some (Node.elem ht hc hch))
    (hh1 : findFirstL isH1El hch = some (Node.elem t1 c1 ch1)) :
    (jsStartsWith (cleanTextOfChildren ch1) "FeDX" = false → heroScript doc = doc) ∧
    (jsStartsWith (cleanTextOfChildren ch1) "FeDX" = true →
      ∃ hch', findFirstL isHeroEl (heroScript doc) = some (Node.elem ht hc hch') ∧
        findFirstL isH1El hch' =
          some (Node.elem t1 c1 (parseNodes (jsReplaceAll (serL ch1) "DX" dxSpan)))) ∧
    cleanTextOfChildren ch1 = cleanTextOfChildren (ch1.filter isTextNode) := by
  refine ⟨?_, ?_, ?_⟩
  · intro hg
    have hrw : rewriteH1 (Node.elem t1 c1 ch1) = Node.elem t1 c1 ch1 := by
      simp [rewriteH1, hg]
    have hin : (updFirstL isH1El rewriteH1 hch).1 = hch :=
      updFirstL_fix _ _ _ _ hh1 hrw
    have hdec : decorateHeroEl (Node.elem ht hc hch) = Node.elem ht hc hch := by
      simp [decorateHeroEl, hin]
    exact updFirstL_fix _ _ _ _ hhero hdec
  · intro hg
    have hrw : rewriteH1 (Node.elem t1 c1 ch1)
        = Node.elem t1 c1 (parseNodes (jsReplaceAll (serL ch1) "DX" dxSpan)) := by
      simp [rewriteH1, hg]
    have hsat1 : isH1El (Node.elem t1 c1 ch1) = true :=
      findFirstL_sat _ _ _ hh1
    have hpm1 : isH1El (rewriteH1 (Node.elem t1 c1 ch1)) = true := by
      rw [isH1El_rewriteH1]; exact hsat1
    have hin := findFirstL_updFirstL isH1El rewriteH1 childBlind_isH1El hch
      (Node.elem t1 c1 ch1) hh1 hpm1
    have hsat0 : isHeroEl (Node.elem ht hc hch) = true :=
      findFirstL_sat _ _ _ hhero
    have hpm0 : isHeroEl (decorateHeroEl (Node.elem ht hc hch)) = true := by
      rw [isHeroEl_decorateHeroEl]; exact hsat0
    have hout := findFirstL_updFirstL isHeroEl decorateHeroEl childBlind_isHeroEl doc
      (Node.elem ht hc hch) hhero hpm0
    refine ⟨(updFirstL isH1El rewriteH1 hch).1, ?_, ?_⟩
    · exact hout
    · rw [hin, hrw]
  · simp [cleanTextOfChildren, directText_filter]

/-- Witness for C4 at a hero whose `h1` text is `FeDX`. -/
theorem heroScript_guard_witness :
    (jsStartsWith (cleanTextOfChildren [Node.text "FeDX"]) "FeDX" = false →
        heroScript heroSoloDoc = heroSoloDoc) ∧
    (jsStartsWith (cleanTextOfChildren [Node.text "FeDX"]) "FeDX" = true →
      ∃ hch', findFirstL isHeroEl (heroScript heroSoloDoc)
            = some (Node.elem "div" ["hero"] hch') ∧
        findFirstL isH1El hch' = some (Node.elem "h1" []
          (parseNodes (jsReplaceAll (serL [Node.text "FeDX"]) "DX" dxSpan)))) ∧
    cleanTextOfChildren [Node.text "FeDX"]
      = cleanTextOfChildren ([Node.text "FeDX"].filter isTextNode) :=
  heroScript_guard heroSoloDoc "div" ["hero"] [Node.elem "h1" [] [Node.text "FeDX"]]
    "h1" [] [Node.text "FeDX"] rfl rfl

/-- C10: the hero script modifies at most the first `h1` of the first
`.hero` element: when no such `h1` exists the document is untouched;
otherwise every node at a path unrelated to the `h1`'s path is exactly
unchanged, and every node on the path to it — the `h1` itself included —
keeps its tag and classes (text data for text nodes), changing only
through its subtree. The embedding has no other global state. -/
theorem heroScript_frame (doc : List Node) (q : List Nat) :
    (heroH1Path doc = none → heroScript doc = doc) ∧
    (∀ hpq, heroH1Path doc = some hpq →
      ((¬ hpq <+: q ∧ ¬ q <+: hpq) → nodeAtL (heroScript doc) q = nodeAtL doc q) ∧
      (q <+: hpq →
        (nodeAtL (heroScript doc) q).map nodeSig = (nodeAtL doc q).map nodeSig)) := by
  constructor
  · exact heroScript_nopath doc
  · intro hpq hsome
    have heq := heroScript_eq_replaceAt doc hpq hsome
    constructor
    · rintro ⟨h1, h2⟩
      rw [heq]
      exact nodeAt_replaceAt_off rewriteH1 hpq doc q h1 h2
    · intro hpre
      by_cases hqe : q = hpq
      · subst hqe
        rw [heq, nodeAt_replaceAt_self]
        cases nodeAtL doc q with
        | none => rfl
        | some n => simp [nodeSig_rewriteH1]
      · rw [heq]
        exact nodeAt_replaceAt_ancestor rewriteH1 hpq doc q hpre hqe

/-- Witness for C10 on a document with a sibling before the hero block:
the sibling is exactly unchanged and the hero block itself keeps its tag
and classes. -/
theorem heroScript_frame_witness :
    nodeAtL (heroScript heroFrameDoc) [0] = nodeAtL heroFrameDoc [0] ∧
    (nodeAtL (heroScript heroFrameDoc) [1]).map nodeSig
      = (nodeAtL heroFrameDoc [1]).map nodeSig :=
  ⟨((heroScript_frame heroFrameDoc [0]).2 [1, 1] rfl).1 ⟨by decide, by decide⟩,
   ((heroScript_frame heroFrameDoc [1]).2 [1, 1] rfl).2 ⟨[1], rfl⟩⟩

/-- C9: when the document has no `.hero` element, or the first `.hero`
element has no `h1` descendant, the hero script is a no-op: every
dereference is guarded, the function is total, and the document is
unchanged. -/
theorem heroScript_noop (doc : List Node) :
    (findFirstL isHeroEl doc = none → heroScript doc = doc) ∧
    (∀ t c ch, findFirstL isHeroEl doc = some (Node.elem t c ch) →
      findFirstL isH1El ch = none → heroScript doc = doc) := by
  constructor
  · intro h
    exact updFirstL_of_find_none _ _ _ h
  · intro t c ch hfind hh1
    have hdec : decorateHeroEl (Node.elem t c ch) = Node.elem t c ch :=
      decorateHeroEl_no_h1 t c ch hh1
    exact updFirstL_fix _ _ _ _ hfind hdec

/-- Witness for C9: a document with no `.hero` at all, and one whose
`.hero` has no `h1`. -/
theorem heroScript_noop_witness :
    heroScript [Node.text "plain"] = [Node.text "plain"] ∧
    heroScript [Node.elem "div" ["hero"] [Node.text "empty"]]
      = [Node.elem "div" ["hero"] [Node.text "empty"]] :=
  ⟨(heroScript_noop [Node.text "plain"]).1 rfl,
   (heroScript_noop [Node.elem "div" ["hero"] [Node.text "empty"]]).2
     "div" ["hero"] [Node.text "empty"] rfl rfl⟩

end DaEdge
